import Mathlib

/-!
Verification of `MultiTypeMap<T>` (src/lib.rs) against its specification.

Shallow embedding conventions:

* `HashMap<K, V>` is modelled as an association list `List (K × V)` operated on
  through `alGet` (`HashMap::get`), `alSet` (the bucket-update part of
  `HashMap::insert`) and `alErase` (the bucket-update part of
  `HashMap::remove`); the values returned by `HashMap::insert` / `remove` are
  recovered with `alGet` on the pre-state, exactly as on the
  no-duplicate-keys representation invariant of a hash map.
* A Rust key type `K: 'static` is a tag `t : Tag`; its carrier of key values is
  `Key t`.  `TypeId::of::<K>()` is a function `tid : Tag → TId`.
* The field `maps: HashMap<TypeId, Box<dyn Any>>` becomes an association list
  from `TId` to the dependent pair `Σ t : Tag, List (Key t × T)`; the
  `downcast_ref` / `downcast_mut` of `Box<dyn Any>` is `downcast`, which
  succeeds exactly when the stored tag matches the requested one.
* A panicking `expect` (the `"two different types should not have the same
  TypeId"` branch) is modelled by the public operations returning `Option`:
  `none` is the abort, `some` the normal result.
* `usize` is modelled as `Nat`: `length` counts stored entries, so the
  increment in `insert` cannot overflow a real `usize` before memory does.
* `get` takes the state but does not return one, mirroring `&self`: it cannot
  modify the container.  `insert`, `remove` and `get_mut` take `&mut self` and
  are modelled in state-passing style, returning the next state.
-/

/-- `HashMap::get` on the association-list model: value of the first entry with
the given key. -/
def alGet {α β : Type} [DecidableEq α] (k : α) : List (α × β) → Option β
  | [] => none
  | (a, b) :: rest => if a = k then some b else alGet k rest

/-- The storage effect of `HashMap::insert` (and of writing through an
`entry`): replace the first entry with the given key, or append a fresh one. -/
def alSet {α β : Type} [DecidableEq α] (k : α) (v : β) : List (α × β) → List (α × β)
  | [] => [(k, v)]
  | (a, b) :: rest => if a = k then (k, v) :: rest else (a, b) :: alSet k v rest

/-- The storage effect of `HashMap::remove`: drop the first entry with the
given key. -/
def alErase {α β : Type} [DecidableEq α] (k : α) : List (α × β) → List (α × β)
  | [] => []
  | (a, b) :: rest => if a = k then rest else (a, b) :: alErase k rest

/-- The state of `MultiTypeMap<T>`: the `maps: HashMap<TypeId, Box<dyn Any>>`
field and the `length: usize` field.  `Key t` is the carrier of the key type
tagged `t`. -/
structure MTM (Tag : Type) (Key : Tag → Type) (TId : Type) (T : Type) where
  maps : List (TId × (Σ t : Tag, List (Key t × T)))
  length : Nat

section Model

variable {Tag : Type} [DecidableEq Tag] {Key : Tag → Type} [∀ t, DecidableEq (Key t)]
variable {TId : Type} [DecidableEq TId] {T : Type}

/-- `MultiTypeMap::new`. -/
def MTM.new : MTM Tag Key TId T := ⟨[], 0⟩

/-- `Box<dyn Any>::downcast_ref::<HashMap<K, T>>` / `downcast_mut`: succeeds
exactly when the stored tag is the requested one. -/
def downcast (t : Tag) (ab : Σ t' : Tag, List (Key t' × T)) : Option (List (Key t × T)) :=
  if h : ab.1 = t then some (h ▸ ab.2) else none

/-- The private `MultiTypeMap::map::<K>` (read path):
`self.maps.get(&TypeId::of::<K>()).map(|m| m.downcast_ref().expect(..))`.
Outer `none`: no bucket for this `TypeId`.  `some none`: the `expect` aborts.
`some (some b)`: the bucket. -/
def MTM.map (s : MTM Tag Key TId T) (tid : Tag → TId) (t : Tag) :
    Option (Option (List (Key t × T))) :=
  (alGet (tid t) s.maps).map (fun ab => downcast t ab)

/-- The private `MultiTypeMap::map_mut::<K>` (write path):
`self.maps.entry(TypeId::of::<K>()).or_insert_with(default).downcast_mut().expect(..)`.
Returns the bucket the caller receives a `&mut` to, together with the state
after the `or_insert_with` (which registers an empty bucket when the `TypeId`
was unseen).  `none` is the aborting `expect`. -/
def MTM.mapMut (s : MTM Tag Key TId T) (tid : Tag → TId) (t : Tag) :
    Option (List (Key t × T) × MTM Tag Key TId T) :=
  match alGet (tid t) s.maps with
  | none => some ([], ⟨alSet (tid t) ⟨t, []⟩ s.maps, s.length⟩)
  | some ab =>
    match downcast t ab with
    | none => none
    | some b => some (b, s)

/-- `MultiTypeMap::insert`: `self.length += 1;` then
`self.map_mut().insert(key, value).map(|v| { self.length -= 1; v })`.
The bucket mutation made through the `&mut` reference is written back with
`alSet` at the bucket's `TypeId`. -/
def MTM.insert (s : MTM Tag Key TId T) (tid : Tag → TId) {t : Tag} (k : Key t) (v : T) :
    Option (Option T × MTM Tag Key TId T) :=
  let s1 : MTM Tag Key TId T := ⟨s.maps, s.length + 1⟩
  (s1.mapMut tid t).map (fun p =>
    let s2 : MTM Tag Key TId T := ⟨alSet (tid t) ⟨t, alSet k v p.1⟩ p.2.maps, p.2.length⟩
    match alGet k p.1 with
    | some w => (some w, ⟨s2.maps, s2.length - 1⟩)
    | none => (none, s2))

/-- `MultiTypeMap::remove`:
`self.map_mut::<K>().remove(key).map(|v| { self.length -= 1; v })`. -/
def MTM.remove (s : MTM Tag Key TId T) (tid : Tag → TId) {t : Tag} (k : Key t) :
    Option (Option T × MTM Tag Key TId T) :=
  (s.mapMut tid t).map (fun p =>
    match alGet k p.1 with
    | some w => (some w, ⟨alSet (tid t) ⟨t, alErase k p.1⟩ p.2.maps, p.2.length - 1⟩)
    | none => (none, p.2))

/-- `MultiTypeMap::get`: `self.map::<K>().and_then(|m| m.get(key))`.
`none` is the aborting `expect` inside `map`; `some r` the returned
`Option<&T>`. -/
def MTM.get (s : MTM Tag Key TId T) (tid : Tag → TId) {t : Tag} (k : Key t) :
    Option (Option T) :=
  match s.map tid t with
  | none => some none
  | some none => none
  | some (some b) => some (alGet k b)

/-- `MultiTypeMap::get_mut`: `self.map_mut::<K>().get_mut(key)`.  The returned
`Option<&mut T>` is modelled by the current value under the key; the state
records the bucket possibly created by `map_mut`. -/
def MTM.getMut (s : MTM Tag Key TId T) (tid : Tag → TId) {t : Tag} (k : Key t) :
    Option (Option T × MTM Tag Key TId T) :=
  (s.mapMut tid t).map (fun p => (alGet k p.1, p.2))

/-- `MultiTypeMap::len`. -/
def MTM.len (s : MTM Tag Key TId T) : Nat := s.length

/-- `MultiTypeMap::is_empty`. -/
def MTM.isEmpty (s : MTM Tag Key TId T) : Bool := s.length == 0

/-- Total number of entries across all buckets: the sum of the bucket sizes. -/
def sumSizes (l : List (TId × (Σ t : Tag, List (Key t × T)))) : Nat :=
  (l.map (fun p => p.2.2.length)).sum

/-- Representation invariant of a `MultiTypeMap` state: every stored bucket
sits under the `TypeId` of its own tag, the `TypeId` keys are distinct (a
`HashMap` has no duplicate keys), each bucket has distinct keys (likewise),
and the `length` field counts all entries. -/
def MTM.WF (tid : Tag → TId) (s : MTM Tag Key TId T) : Prop :=
  (∀ p ∈ s.maps, tid p.2.1 = p.1) ∧
  (s.maps.map Prod.fst).Nodup ∧
  (∀ p ∈ s.maps, (p.2.2.map Prod.fst).Nodup) ∧
  s.length = sumSizes s.maps

/-- States reachable from `MultiTypeMap::new` by the mutating operations
(`get` takes `&self` and cannot change the state). -/
inductive MTM.Reachable (tid : Tag → TId) : MTM Tag Key TId T → Prop where
  | new : MTM.Reachable tid MTM.new
  | insert {s s' : MTM Tag Key TId T} {t : Tag} {k : Key t} {v : T} {r : Option T} :
      MTM.Reachable tid s → s.insert tid k v = some (r, s') → MTM.Reachable tid s'
  | remove {s s' : MTM Tag Key TId T} {t : Tag} {k : Key t} {r : Option T} :
      MTM.Reachable tid s → s.remove tid k = some (r, s') → MTM.Reachable tid s'
  | getMut {s s' : MTM Tag Key TId T} {t : Tag} {k : Key t} {r : Option T} :
      MTM.Reachable tid s → s.getMut tid k = some (r, s') → MTM.Reachable tid s'

end Model

/-- A concrete key universe for evaluating the development on concrete inputs:
tags, `TypeId`s and the keys of every key type are natural numbers, as is the
value type. -/
abbrev NKey : Nat → Type := fun _ => Nat

/-- `MultiTypeMap<Nat>` over the concrete key universe, with `TypeId::of`
being the identity on tags. -/
abbrev NMTM : Type := MTM Nat NKey Nat Nat

/-! ### Association-list lemmas -/

section AListLemmas

variable {α β : Type} [DecidableEq α]

@[simp] theorem alGet_nil {k : α} : alGet k ([] : List (α × β)) = none := rfl

@[simp] theorem alGet_cons {k a : α} {b : β} {rest : List (α × β)} :
    alGet k ((a, b) :: rest) = if a = k then some b else alGet k rest := rfl

@[simp] theorem alSet_nil {k : α} {v : β} : alSet k v ([] : List (α × β)) = [(k, v)] := rfl

@[simp] theorem alSet_cons {k a : α} {v b : β} {rest : List (α × β)} :
    alSet k v ((a, b) :: rest) =
      if a = k then (k, v) :: rest else (a, b) :: alSet k v rest := rfl

@[simp] theorem alErase_nil {k : α} : alErase k ([] : List (α × β)) = [] := rfl

@[simp] theorem alErase_cons {k a : α} {b : β} {rest : List (α × β)} :
    alErase k ((a, b) :: rest) = if a = k then rest else (a, b) :: alErase k rest := rfl

theorem alGet_mem {k : α} {l : List (α × β)} {b : β} (h : alGet k l = some b) : (k, b) ∈ l := by
  induction l with
  | nil => simp at h
  | cons p rest ih =>
    obtain ⟨a, b'⟩ := p
    by_cases hak : a = k
    · subst hak
      simp at h
      subst h
      exact List.mem_cons_self _ _
    · simp [hak] at h
      exact List.mem_cons_of_mem _ (ih h)

theorem alGet_eq_none_iff {k : α} {l : List (α × β)} :
    alGet k l = none ↔ k ∉ l.map Prod.fst := by
  induction l with
  | nil => simp
  | cons p rest ih =>
    obtain ⟨a, b⟩ := p
    by_cases hak : a = k
    · subst hak; simp
    · simp [hak, ih, Ne.symm hak]

theorem alGet_alSet_self {k : α} {v : β} {l : List (α × β)} :
    alGet k (alSet k v l) = some v := by
  induction l with
  | nil => simp
  | cons p rest ih =>
    obtain ⟨a, b⟩ := p
    by_cases hak : a = k
    · subst hak; simp
    · simp [hak, ih]

theorem alGet_alSet_ne {k k' : α} {v : β} {l : List (α × β)} (h : k' ≠ k) :
    alGet k' (alSet k v l) = alGet k' l := by
  induction l with
  | nil => simp [Ne.symm h]
  | cons p rest ih =>
    obtain ⟨a, b⟩ := p
    by_cases hak : a = k
    · subst hak; simp [Ne.symm h, h]
    · by_cases hak' : a = k' <;> simp [hak, hak', ih, h]

theorem alGet_alErase_ne {k k' : α} {l : List (α × β)} (h : k' ≠ k) :
    alGet k' (alErase k l) = alGet k' l := by
  induction l with
  | nil => simp
  | cons p rest ih =>
    obtain ⟨a, b⟩ := p
    by_cases hak : a = k
    · subst hak; simp [Ne.symm h]
    · by_cases hak' : a = k' <;> simp [hak, hak', ih, h]

theorem length_alSet_none {k : α} {v : β} {l : List (α × β)} (h : alGet k l = none) :
    (alSet k v l).length = l.length + 1 := by
  induction l with
  | nil => simp
  | cons p rest ih =>
    obtain ⟨a, b⟩ := p
    by_cases hak : a = k
    · subst hak; simp at h
    · simp [hak] at h ⊢
      exact ih h

theorem length_alSet_some {k : α} {v w : β} {l : List (α × β)} (h : alGet k l = some w) :
    (alSet k v l).length = l.length := by
  induction l with
  | nil => simp at h
  | cons p rest ih =>
    obtain ⟨a, b⟩ := p
    by_cases hak : a = k
    · subst hak; simp
    · simp [hak] at h ⊢
      exact ih h

theorem alErase_of_get_none {k : α} {l : List (α × β)} (h : alGet k l = none) :
    alErase k l = l := by
  induction l with
  | nil => simp
  | cons p rest ih =>
    obtain ⟨a, b⟩ := p
    by_cases hak : a = k
    · subst hak; simp at h
    · simp [hak] at h ⊢
      exact ih h

theorem length_alErase_some {k : α} {w : β} {l : List (α × β)} (h : alGet k l = some w) :
    l.length = (alErase k l).length + 1 := by
  induction l with
  | nil => simp at h
  | cons p rest ih =>
    obtain ⟨a, b⟩ := p
    by_cases hak : a = k
    · subst hak; simp
    · simp [hak] at h ⊢
      exact ih h

theorem alSet_alSet {k : α} {v1 v2 : β} {l : List (α × β)} :
    alSet k v2 (alSet k v1 l) = alSet k v2 l := by
  induction l with
  | nil => simp
  | cons p rest ih =>
    obtain ⟨a, b⟩ := p
    by_cases hak : a = k
    · subst hak; simp
    · simp [hak, ih]

theorem keys_alSet_some {k : α} {v w : β} {l : List (α × β)} (h : alGet k l = some w) :
    (alSet k v l).map Prod.fst = l.map Prod.fst := by
  induction l with
  | nil => simp at h
  | cons p rest ih =>
    obtain ⟨a, b⟩ := p
    by_cases hak : a = k
    · subst hak; simp
    · simp [hak] at h ⊢
      exact ih h

theorem keys_alSet_none {k : α} {v : β} {l : List (α × β)} (h : alGet k l = none) :
    (alSet k v l).map Prod.fst = l.map Prod.fst ++ [k] := by
  induction l with
  | nil => simp
  | cons p rest ih =>
    obtain ⟨a, b⟩ := p
    by_cases hak : a = k
    · subst hak; simp at h
    · simp [hak] at h ⊢
      exact ih h

theorem mem_alSet {k : α} {v : β} {l : List (α × β)} {p : α × β} (h : p ∈ alSet k v l) :
    p = (k, v) ∨ p ∈ l := by
  induction l with
  | nil =>
    simp at h
    exact Or.inl h
  | cons q rest ih =>
    obtain ⟨a, b⟩ := q
    by_cases hak : a = k
    · subst hak
      simp at h
      rcases h with h | h
      · exact Or.inl (by simp [h])
      · exact Or.inr (List.mem_cons_of_mem _ h)
    · simp [hak] at h
      rcases h with h | h
      · exact Or.inr (by simp [h])
      · rcases ih h with h' | h'
        · exact Or.inl h'
        · exact Or.inr (List.mem_cons_of_mem _ h')

theorem alErase_sublist {k : α} {l : List (α × β)} : List.Sublist (alErase k l) l := by
  induction l with
  | nil => simp
  | cons p rest ih =>
    obtain ⟨a, b⟩ := p
    by_cases hak : a = k
    · subst hak
      simp
    · simp [hak]
      exact ih

theorem sum_map_alSet_none {k : α} {v : β} {l : List (α × β)} {f : α × β → Nat}
    (h : alGet k l = none) :
    ((alSet k v l).map f).sum = (l.map f).sum + f (k, v) := by
  induction l with
  | nil => simp
  | cons p rest ih =>
    obtain ⟨a, b⟩ := p
    by_cases hak : a = k
    · subst hak; simp at h
    · simp [hak] at h ⊢
      rw [ih h]
      omega

theorem sum_map_alSet_some {k : α} {v w : β} {l : List (α × β)} {f : α × β → Nat}
    (h : alGet k l = some w) :
    ((alSet k v l).map f).sum + f (k, w) = (l.map f).sum + f (k, v) := by
  induction l with
  | nil => simp at h
  | cons p rest ih =>
    obtain ⟨a, b⟩ := p
    by_cases hak : a = k
    · subst hak
      simp at h ⊢
      subst h
      omega
    · simp [hak] at h ⊢
      have := ih h
      omega

theorem le_sum_map_of_alGet {k : α} {w : β} {l : List (α × β)} {f : α × β → Nat}
    (h : alGet k l = some w) : f (k, w) ≤ (l.map f).sum := by
  induction l with
  | nil => simp at h
  | cons p rest ih =>
    obtain ⟨a, b⟩ := p
    by_cases hak : a = k
    · subst hak
      simp at h ⊢
      subst h
      omega
    · simp [hak] at h ⊢
      have := ih h
      omega

end AListLemmas

/-! ### Characterization of the operations -/

section ModelLemmas

variable {Tag : Type} [DecidableEq Tag] {Key : Tag → Type} [∀ t, DecidableEq (Key t)]
variable {TId : Type} [DecidableEq TId] {T : Type}

@[simp] theorem downcast_self {t : Tag} {b : List (Key t × T)} :
    downcast t (⟨t, b⟩ : Σ t' : Tag, List (Key t' × T)) = some b := by
  simp [downcast]

theorem downcast_ne {t t' : Tag} {b : List (Key t' × T)} (h : t' ≠ t) :
    downcast t (⟨t', b⟩ : Σ t'' : Tag, List (Key t'' × T)) =
      (none : Option (List (Key t × T))) := by
  simp [downcast, h]

theorem mapMut_cases {s : MTM Tag Key TId T} {tid : Tag → TId}
    (hinj : Function.Injective tid) (htags : ∀ p ∈ s.maps, tid p.2.1 = p.1) (t : Tag) :
    (alGet (tid t) s.maps = none ∧
      s.mapMut tid t = some ([], ⟨alSet (tid t) ⟨t, []⟩ s.maps, s.length⟩)) ∨
    ∃ b, alGet (tid t) s.maps = some ⟨t, b⟩ ∧ s.mapMut tid t = some (b, s) := by
  cases hget : alGet (tid t) s.maps with
  | none => exact Or.inl ⟨rfl, by simp [MTM.mapMut, hget]⟩
  | some ab =>
    obtain ⟨t', b⟩ := ab
    have h1 : tid t' = tid t := htags _ (alGet_mem hget)
    have h2 : t' = t := hinj h1
    subst h2
    exact Or.inr ⟨b, rfl, by simp [MTM.mapMut, hget]⟩

theorem get_cases {s : MTM Tag Key TId T} {tid : Tag → TId}
    (hinj : Function.Injective tid) (htags : ∀ p ∈ s.maps, tid p.2.1 = p.1)
    {t : Tag} (k : Key t) :
    (alGet (tid t) s.maps = none ∧ s.get tid k = some none) ∨
    ∃ b, alGet (tid t) s.maps = some ⟨t, b⟩ ∧ s.get tid k = some (alGet k b) := by
  cases hget : alGet (tid t) s.maps with
  | none => exact Or.inl ⟨rfl, by simp [MTM.get, MTM.map, hget]⟩
  | some ab =>
    obtain ⟨t', b⟩ := ab
    have h2 : t' = t := hinj (htags _ (alGet_mem hget))
    subst h2
    exact Or.inr ⟨b, rfl, by simp [MTM.get, MTM.map, hget]⟩

theorem get_congr {s1 s2 : MTM Tag Key TId T} {tid : Tag → TId} {t : Tag} (k : Key t)
    (h : alGet (tid t) s1.maps = alGet (tid t) s2.maps) : s1.get tid k = s2.get tid k := by
  unfold MTM.get MTM.map
  rw [h]

theorem get_of_maps_alSet {tid : Tag → TId} {t : Tag} {b : List (Key t × T)}
    {m : List (TId × (Σ t' : Tag, List (Key t' × T)))} {n : Nat} (k : Key t) :
    (⟨alSet (tid t) ⟨t, b⟩ m, n⟩ : MTM Tag Key TId T).get tid k = some (alGet k b) := by
  simp [MTM.get, MTM.map, alGet_alSet_self]

theorem insert_cases {s : MTM Tag Key TId T} {tid : Tag → TId}
    (hinj : Function.Injective tid) (htags : ∀ p ∈ s.maps, tid p.2.1 = p.1)
    {t : Tag} (k : Key t) (v : T) :
    (alGet (tid t) s.maps = none ∧
      s.insert tid k v = some (none, ⟨alSet (tid t) ⟨t, [(k, v)]⟩ s.maps, s.length + 1⟩)) ∨
    (∃ b, alGet (tid t) s.maps = some ⟨t, b⟩ ∧ alGet k b = none ∧
      s.insert tid k v = some (none, ⟨alSet (tid t) ⟨t, alSet k v b⟩ s.maps, s.length + 1⟩)) ∨
    (∃ b w, alGet (tid t) s.maps = some ⟨t, b⟩ ∧ alGet k b = some w ∧
      s.insert tid k v = some (some w, ⟨alSet (tid t) ⟨t, alSet k v b⟩ s.maps, s.length⟩)) := by
  have hmm := mapMut_cases (s := ⟨s.maps, s.length + 1⟩) hinj htags t
  rcases hmm with ⟨hget, hmm⟩ | ⟨b, hget, hmm⟩
  · refine Or.inl ⟨hget, ?_⟩
    simp [MTM.insert, hmm, alSet_alSet]
  · cases hold : alGet k b with
    | none =>
      refine Or.inr (Or.inl ⟨b, hget, hold, ?_⟩)
      simp [MTM.insert, hmm, hold]
    | some w =>
      refine Or.inr (Or.inr ⟨b, w, hget, hold, ?_⟩)
      simp [MTM.insert, hmm, hold]

theorem remove_cases {s : MTM Tag Key TId T} {tid : Tag → TId}
    (hinj : Function.Injective tid) (htags : ∀ p ∈ s.maps, tid p.2.1 = p.1)
    {t : Tag} (k : Key t) :
    (alGet (tid t) s.maps = none ∧
      s.remove tid k = some (none, ⟨alSet (tid t) ⟨t, []⟩ s.maps, s.length⟩)) ∨
    (∃ b, alGet (tid t) s.maps = some ⟨t, b⟩ ∧ alGet k b = none ∧
      s.remove tid k = some (none, s)) ∨
    (∃ b w, alGet (tid t) s.maps = some ⟨t, b⟩ ∧ alGet k b = some w ∧
      s.remove tid k = some (some w, ⟨alSet (tid t) ⟨t, alErase k b⟩ s.maps, s.length - 1⟩)) := by
  rcases mapMut_cases hinj htags t with ⟨hget, hmm⟩ | ⟨b, hget, hmm⟩
  · refine Or.inl ⟨hget, ?_⟩
    simp [MTM.remove, hmm]
  · cases hold : alGet k b with
    | none =>
      refine Or.inr (Or.inl ⟨b, hget, hold, ?_⟩)
      simp [MTM.remove, hmm, hold]
    | some w =>
      refine Or.inr (Or.inr ⟨b, w, hget, hold, ?_⟩)
      simp [MTM.remove, hmm, hold]

theorem getMut_cases {s : MTM Tag Key TId T} {tid : Tag → TId}
    (hinj : Function.Injective tid) (htags : ∀ p ∈ s.maps, tid p.2.1 = p.1)
    {t : Tag} (k : Key t) :
    (alGet (tid t) s.maps = none ∧
      s.getMut tid k = some (none, ⟨alSet (tid t) ⟨t, []⟩ s.maps, s.length⟩)) ∨
    ∃ b, alGet (tid t) s.maps = some ⟨t, b⟩ ∧ s.getMut tid k = some (alGet k b, s) := by
  rcases mapMut_cases hinj htags t with ⟨hget, hmm⟩ | ⟨b, hget, hmm⟩
  · exact Or.inl ⟨hget, by simp [MTM.getMut, hmm]⟩
  · exact Or.inr ⟨b, hget, by simp [MTM.getMut, hmm]⟩

end ModelLemmas

/-! ### Preservation of the representation invariant -/

section WFLemmas

variable {Tag : Type} [DecidableEq Tag] {Key : Tag → Type} [∀ t, DecidableEq (Key t)]
variable {TId : Type} [DecidableEq TId] {T : Type}

theorem wf_new (tid : Tag → TId) : (MTM.new : MTM Tag Key TId T).WF tid := by
  simp [MTM.WF, MTM.new, sumSizes]

theorem keysNodup_alSet {α β : Type} [DecidableEq α] {m : List (α × β)} {i : α} {x : β}
    (hnd : (m.map Prod.fst).Nodup) : ((alSet i x m).map Prod.fst).Nodup := by
  cases hget : alGet i m with
  | some y => rw [keys_alSet_some hget]; exact hnd
  | none =>
    rw [keys_alSet_none hget]
    have hni : i ∉ m.map Prod.fst := alGet_eq_none_iff.mp hget
    simp [List.nodup_append, hnd, hni]

theorem keysNodup_alErase {α β : Type} [DecidableEq α] {m : List (α × β)} {k : α}
    (hnd : (m.map Prod.fst).Nodup) : ((alErase k m).map Prod.fst).Nodup :=
  List.Nodup.sublist (List.Sublist.map Prod.fst alErase_sublist) hnd

theorem tags_alSet {tid : Tag → TId} {m : List (TId × (Σ t' : Tag, List (Key t' × T)))}
    (htags : ∀ p ∈ m, tid p.2.1 = p.1) {t : Tag} {b : List (Key t × T)} :
    ∀ p ∈ alSet (tid t) ⟨t, b⟩ m, tid p.2.1 = p.1 := by
  intro p hp
  rcases mem_alSet hp with h | h
  · subst h; rfl
  · exact htags _ h

theorem bucketsNodup_alSet {m : List (TId × (Σ t' : Tag, List (Key t' × T)))}
    (hb : ∀ p ∈ m, (p.2.2.map Prod.fst).Nodup) {i : TId} {t : Tag} {b : List (Key t × T)}
    (hbnd : (b.map Prod.fst).Nodup) :
    ∀ p ∈ alSet i ⟨t, b⟩ m, (p.2.2.map Prod.fst).Nodup := by
  intro p hp
  rcases mem_alSet hp with h | h
  · subst h; exact hbnd
  · exact hb _ h

theorem sumSizes_alSet_none {m : List (TId × (Σ t' : Tag, List (Key t' × T)))} {i : TId}
    (ab : Σ t' : Tag, List (Key t' × T)) (h : alGet i m = none) :
    sumSizes (alSet i ab m) = sumSizes m + ab.2.length :=
  sum_map_alSet_none h

theorem sumSizes_alSet_some {m : List (TId × (Σ t' : Tag, List (Key t' × T)))} {i : TId}
    (ab : Σ t' : Tag, List (Key t' × T)) {y : Σ t' : Tag, List (Key t' × T)}
    (h : alGet i m = some y) :
    sumSizes (alSet i ab m) + y.2.length = sumSizes m + ab.2.length :=
  sum_map_alSet_some h

theorem bucket_le_sumSizes {m : List (TId × (Σ t' : Tag, List (Key t' × T)))} {i : TId}
    {y : Σ t' : Tag, List (Key t' × T)} (h : alGet i m = some y) :
    y.2.length ≤ sumSizes m :=
  le_sum_map_of_alGet (f := fun p => p.2.2.length) h

theorem wf_insert {s s' : MTM Tag Key TId T} {tid : Tag → TId}
    (hinj : Function.Injective tid) (hwf : s.WF tid) {t : Tag} {k : Key t} {v : T}
    {r : Option T} (h : s.insert tid k v = some (r, s')) : s'.WF tid := by
  obtain ⟨htags, hknd, hbnd, hlen⟩ := hwf
  rcases insert_cases hinj htags k v
    with ⟨hget, heq⟩ | ⟨b, hget, hold, heq⟩ | ⟨b, w, hget, hold, heq⟩
  · have hs : r = none ∧ s' = ⟨alSet (tid t) ⟨t, [(k, v)]⟩ s.maps, s.length + 1⟩ := by
      have h2 := h.symm.trans heq
      simpa using h2
    obtain ⟨-, hs⟩ := hs
    subst hs
    refine ⟨tags_alSet htags, keysNodup_alSet hknd, bucketsNodup_alSet hbnd (by simp), ?_⟩
    show s.length + 1 = sumSizes (alSet (tid t) ⟨t, [(k, v)]⟩ s.maps)
    have := sumSizes_alSet_none ⟨t, [(k, v)]⟩ hget
    simp at this
    omega
  · have hs : r = none ∧ s' = ⟨alSet (tid t) ⟨t, alSet k v b⟩ s.maps, s.length + 1⟩ := by
      have h2 := h.symm.trans heq
      simpa using h2
    obtain ⟨-, hs⟩ := hs
    subst hs
    have hbnd1 : (b.map Prod.fst).Nodup := hbnd _ (alGet_mem hget)
    refine ⟨tags_alSet htags, keysNodup_alSet hknd,
      bucketsNodup_alSet hbnd (keysNodup_alSet hbnd1), ?_⟩
    show s.length + 1 = sumSizes (alSet (tid t) ⟨t, alSet k v b⟩ s.maps)
    have h1 := sumSizes_alSet_some ⟨t, alSet k v b⟩ hget
    have h2 := length_alSet_none (v := v) hold
    simp at h1
    omega
  · have hs : r = some w ∧ s' = ⟨alSet (tid t) ⟨t, alSet k v b⟩ s.maps, s.length⟩ := by
      have h2 := h.symm.trans heq
      simpa using h2
    obtain ⟨-, hs⟩ := hs
    subst hs
    have hbnd1 : (b.map Prod.fst).Nodup := hbnd _ (alGet_mem hget)
    refine ⟨tags_alSet htags, keysNodup_alSet hknd,
      bucketsNodup_alSet hbnd (keysNodup_alSet hbnd1), ?_⟩
    show s.length = sumSizes (alSet (tid t) ⟨t, alSet k v b⟩ s.maps)
    have h1 := sumSizes_alSet_some ⟨t, alSet k v b⟩ hget
    have h2 := length_alSet_some (v := v) hold
    simp at h1
    omega

theorem wf_remove {s s' : MTM Tag Key TId T} {tid : Tag → TId}
    (hinj : Function.Injective tid) (hwf : s.WF tid) {t : Tag} {k : Key t}
    {r : Option T} (h : s.remove tid k = some (r, s')) : s'.WF tid := by
  obtain ⟨htags, hknd, hbnd, hlen⟩ := hwf
  rcases remove_cases hinj htags k
    with ⟨hget, heq⟩ | ⟨b, hget, hold, heq⟩ | ⟨b, w, hget, hold, heq⟩
  · have hs : r = none ∧ s' = ⟨alSet (tid t) ⟨t, []⟩ s.maps, s.length⟩ := by
      have h2 := h.symm.trans heq
      simpa using h2
    obtain ⟨-, hs⟩ := hs
    subst hs
    refine ⟨tags_alSet htags, keysNodup_alSet hknd, bucketsNodup_alSet hbnd (by simp), ?_⟩
    show s.length = sumSizes (alSet (tid t) ⟨t, []⟩ s.maps)
    have := sumSizes_alSet_none ⟨t, []⟩ hget
    simp at this
    omega
  · have hs : r = none ∧ s' = s := by
      have h2 := h.symm.trans heq
      simpa using h2
    obtain ⟨-, hs⟩ := hs
    subst hs
    exact ⟨htags, hknd, hbnd, hlen⟩
  · have hs : r = some w ∧ s' = ⟨alSet (tid t) ⟨t, alErase k b⟩ s.maps, s.length - 1⟩ := by
      have h2 := h.symm.trans heq
      simpa using h2
    obtain ⟨-, hs⟩ := hs
    subst hs
    have hbnd1 : (b.map Prod.fst).Nodup := hbnd _ (alGet_mem hget)
    refine ⟨tags_alSet htags, keysNodup_alSet hknd,
      bucketsNodup_alSet hbnd (keysNodup_alErase hbnd1), ?_⟩
    show s.length - 1 = sumSizes (alSet (tid t) ⟨t, alErase k b⟩ s.maps)
    have h1 := sumSizes_alSet_some ⟨t, alErase k b⟩ hget
    have h2 := length_alErase_some (k := k) hold
    simp at h1
    omega

theorem wf_getMut {s s' : MTM Tag Key TId T} {tid : Tag → TId}
    (hinj : Function.Injective tid) (hwf : s.WF tid) {t : Tag} {k : Key t}
    {r : Option T} (h : s.getMut tid k = some (r, s')) : s'.WF tid := by
  obtain ⟨htags, hknd, hbnd, hlen⟩ := hwf
  rcases getMut_cases hinj htags k with ⟨hget, heq⟩ | ⟨b, hget, heq⟩
  · have hs : r = none ∧ s' = ⟨alSet (tid t) ⟨t, []⟩ s.maps, s.length⟩ := by
      have h2 := h.symm.trans heq
      simpa using h2
    obtain ⟨-, hs⟩ := hs
    subst hs
    refine ⟨tags_alSet htags, keysNodup_alSet hknd, bucketsNodup_alSet hbnd (by simp), ?_⟩
    show s.length = sumSizes (alSet (tid t) ⟨t, []⟩ s.maps)
    have := sumSizes_alSet_none ⟨t, []⟩ hget
    simp at this
    omega
  · have hs : r = alGet k b ∧ s' = s := by
      have h2 := h.symm.trans heq
      simpa using h2
    obtain ⟨-, hs⟩ := hs
    subst hs
    exact ⟨htags, hknd, hbnd, hlen⟩

theorem reachable_wf {tid : Tag → TId} (hinj : Function.Injective tid)
    {s : MTM Tag Key TId T} (h : MTM.Reachable tid s) : s.WF tid := by
  induction h with
  | new => exact wf_new tid
  | insert _ heq ih => exact wf_insert hinj ih heq
  | remove _ heq ih => exact wf_remove hinj ih heq
  | getMut _ heq ih => exact wf_getMut hinj ih heq

end WFLemmas

/-! ### The claims -/

section Claims

variable {Tag : Type} [DecidableEq Tag] {Key : Tag → Type} [∀ t, DecidableEq (Key t)]
variable {TId : Type} [DecidableEq TId] {T : Type}

/-- **C1.** For every `MultiTypeMap` state reachable from the empty container
by any sequence of `insert`, `remove`, `get` and `get_mut` calls (over any key
types), the stored `length` counter equals the sum of the sizes of all buckets
currently held, so `len()` reports the total number of entries across every
key type.  (`get` takes `&self` and cannot change the state, so `Reachable`
ranges over the mutating calls; the injectivity hypothesis is Rust's guarantee
that distinct `'static` types have distinct `TypeId`s.) -/
theorem C1_len_eq_sum_of_bucket_sizes {tid : Tag → TId} (hinj : Function.Injective tid)
    {s : MTM Tag Key TId T} (hreach : MTM.Reachable tid s) :
    s.len = sumSizes s.maps :=
  (reachable_wf hinj hreach).2.2.2

/-- Witness for C1: a concrete state reached by one `insert` from the empty
container. -/
theorem C1_witness :
    Function.Injective (id : Nat → Nat) ∧
    MTM.Reachable id (⟨[(0, ⟨0, [(5, 7)]⟩)], 1⟩ : NMTM) ∧
    (⟨[(0, ⟨0, [(5, 7)]⟩)], 1⟩ : NMTM).len =
      sumSizes (⟨[(0, ⟨0, [(5, 7)]⟩)], 1⟩ : NMTM).maps :=
  ⟨Function.injective_id,
   MTM.Reachable.insert (t := 0) (k := 5) (v := 7) (r := none) MTM.Reachable.new (by rfl),
   C1_len_eq_sum_of_bucket_sizes Function.injective_id
     (MTM.Reachable.insert (t := 0) (k := 5) (v := 7) (r := none) MTM.Reachable.new (by rfl))⟩

/-- **C2.** For every well-formed state, key type, key `k` and value `v`: if
`k` was absent before the call, `insert k v` returns `None` and `len()`
increases by exactly 1; if `k` was present, `insert k v` returns the previous
value stored under `k` and `len()` is unchanged; in both cases the stored
value is updated to `v`. -/
theorem C2_insert_spec {tid : Tag → TId} (hinj : Function.Injective tid)
    {s : MTM Tag Key TId T} (hwf : s.WF tid) {t : Tag} (k : Key t) (v : T) :
    (s.get tid k = some none →
      ∃ s', s.insert tid k v = some (none, s') ∧ s'.len = s.len + 1 ∧
        s'.get tid k = some (some v)) ∧
    ∀ w, s.get tid k = some (some w) →
      ∃ s', s.insert tid k v = some (some w, s') ∧ s'.len = s.len ∧
        s'.get tid k = some (some v) := by
  obtain ⟨htags, -, -, -⟩ := hwf
  rcases insert_cases hinj htags k v
    with ⟨hget, heq⟩ | ⟨b, hget, hold, heq⟩ | ⟨b, w, hget, hold, heq⟩
  · have hg : s.get tid k = some none := by simp [MTM.get, MTM.map, hget]
    constructor
    · intro _
      exact ⟨_, heq, rfl, by simpa using get_of_maps_alSet (b := [(k, v)]) k⟩
    · intro w hw
      rw [hg] at hw
      simp at hw
  · have hg : s.get tid k = some none := by
      simp [MTM.get, MTM.map, hget, hold]
    constructor
    · intro _
      exact ⟨_, heq, rfl, by simpa [alGet_alSet_self] using get_of_maps_alSet (b := alSet k v b) k⟩
    · intro w hw
      rw [hg] at hw
      simp at hw
  · have hg : s.get tid k = some (some w) := by
      simp [MTM.get, MTM.map, hget, hold]
    constructor
    · intro hw
      rw [hg] at hw
      simp at hw
    · intro w' hw
      rw [hg] at hw
      simp at hw
      subst hw
      exact ⟨_, heq, rfl, by simpa [alGet_alSet_self] using get_of_maps_alSet (b := alSet k v b) k⟩

/-- Witness for C2 on the empty container, where key `5` of key type `0` is
absent. -/
theorem C2_witness :
    Function.Injective (id : Nat → Nat) ∧ (MTM.new : NMTM).WF id ∧
    (((MTM.new : NMTM).get id (t := 0) 5 = some none →
      ∃ s', (MTM.new : NMTM).insert id (t := 0) 5 7 = some (none, s') ∧
        s'.len = (MTM.new : NMTM).len + 1 ∧ s'.get id (t := 0) 5 = some (some 7)) ∧
    ∀ w, (MTM.new : NMTM).get id (t := 0) 5 = some (some w) →
      ∃ s', (MTM.new : NMTM).insert id (t := 0) 5 7 = some (some w, s') ∧
        s'.len = (MTM.new : NMTM).len ∧ s'.get id (t := 0) 5 = some (some 7)) :=
  ⟨Function.injective_id, wf_new id,
   C2_insert_spec Function.injective_id (wf_new id) (t := 0) 5 7⟩

/-- **C3.** For every well-formed state, key type and key `k`: if `k` is
present, `remove k` returns the stored value and `len()` decreases by exactly
1; if `k` is absent, `remove k` returns `None` and `len()` is unchanged. -/
theorem C3_remove_spec {tid : Tag → TId} (hinj : Function.Injective tid)
    {s : MTM Tag Key TId T} (hwf : s.WF tid) {t : Tag} (k : Key t) :
    (∀ w, s.get tid k = some (some w) →
      ∃ s', s.remove tid k = some (some w, s') ∧ s'.len + 1 = s.len) ∧
    (s.get tid k = some none →
      ∃ s', s.remove tid k = some (none, s') ∧ s'.len = s.len) := by
  obtain ⟨htags, -, -, hlen⟩ := hwf
  rcases remove_cases hinj htags k
    with ⟨hget, heq⟩ | ⟨b, hget, hold, heq⟩ | ⟨b, w, hget, hold, heq⟩
  · have hg : s.get tid k = some none := by simp [MTM.get, MTM.map, hget]
    constructor
    · intro w hw
      rw [hg] at hw
      simp at hw
    · intro _
      exact ⟨_, heq, rfl⟩
  · have hg : s.get tid k = some none := by
      simp [MTM.get, MTM.map, hget, hold]
    constructor
    · intro w hw
      rw [hg] at hw
      simp at hw
    · intro _
      exact ⟨_, heq, rfl⟩
  · have hg : s.get tid k = some (some w) := by
      simp [MTM.get, MTM.map, hget, hold]
    constructor
    · intro w' hw
      rw [hg] at hw
      simp at hw
      subst hw
      refine ⟨_, heq, ?_⟩
      have hble : b.length ≤ sumSizes s.maps := bucket_le_sumSizes hget
      have hbpos : 0 < b.length := List.length_pos.mpr (List.ne_nil_of_mem (alGet_mem hold))
      show s.length - 1 + 1 = s.length
      omega
    · intro hw
      rw [hg] at hw
      simp at hw

/-- Witness for C3 on a concrete one-entry well-formed state. -/
theorem C3_witness :
    Function.Injective (id : Nat → Nat) ∧ (⟨[(0, ⟨0, [(5, 7)]⟩)], 1⟩ : NMTM).WF id ∧
    ((∀ w, (⟨[(0, ⟨0, [(5, 7)]⟩)], 1⟩ : NMTM).get id (t := 0) 5 = some (some w) →
      ∃ s', (⟨[(0, ⟨0, [(5, 7)]⟩)], 1⟩ : NMTM).remove id (t := 0) 5 = some (some w, s') ∧
        s'.len + 1 = (⟨[(0, ⟨0, [(5, 7)]⟩)], 1⟩ : NMTM).len) ∧
    ((⟨[(0, ⟨0, [(5, 7)]⟩)], 1⟩ : NMTM).get id (t := 0) 5 = some none →
      ∃ s', (⟨[(0, ⟨0, [(5, 7)]⟩)], 1⟩ : NMTM).remove id (t := 0) 5 = some (none, s') ∧
        s'.len = (⟨[(0, ⟨0, [(5, 7)]⟩)], 1⟩ : NMTM).len)) :=
  ⟨Function.injective_id, by refine ⟨?_, ?_, ?_, ?_⟩ <;> simp [sumSizes],
   C3_remove_spec Function.injective_id
     (by refine ⟨?_, ?_, ?_, ?_⟩ <;> simp [sumSizes]) (t := 0) 5⟩

/-- **C7.** After `insert k v`, an immediate `get k` on the same key returns
the just-inserted value `v`. -/
theorem C7_insert_then_get {tid : Tag → TId} (hinj : Function.Injective tid)
    {s : MTM Tag Key TId T} (hwf : s.WF tid) {t : Tag} (k : Key t) (v : T) :
    ∀ r s', s.insert tid k v = some (r, s') → s'.get tid k = some (some v) := by
  obtain ⟨htags, -, -, -⟩ := hwf
  intro r s' h
  rcases insert_cases hinj htags k v
    with ⟨hget, heq⟩ | ⟨b, hget, hold, heq⟩ | ⟨b, w, hget, hold, heq⟩
  · have hs := h.symm.trans heq
    simp at hs
    obtain ⟨-, hs⟩ := hs
    subst hs
    simpa using get_of_maps_alSet (b := [(k, v)]) k
  · have hs := h.symm.trans heq
    simp at hs
    obtain ⟨-, hs⟩ := hs
    subst hs
    simpa [alGet_alSet_self] using get_of_maps_alSet (b := alSet k v b) k
  · have hs := h.symm.trans heq
    simp at hs
    obtain ⟨-, hs⟩ := hs
    subst hs
    simpa [alGet_alSet_self] using get_of_maps_alSet (b := alSet k v b) k

/-- Witness for C7 on the empty container. -/
theorem C7_witness :
    Function.Injective (id : Nat → Nat) ∧ (MTM.new : NMTM).WF id ∧
    (∀ r s', (MTM.new : NMTM).insert id (t := 0) 5 7 = some (r, s') →
      s'.get id (t := 0) 5 = some (some 7)) :=
  ⟨Function.injective_id, wf_new id,
   C7_insert_then_get Function.injective_id (wf_new id) (t := 0) 5 7⟩

/-- **C8.** If no bucket exists yet for a key type, `get` returns `None`
without creating a bucket: `get` takes `&self` (in the embedding it consumes
the state and returns only the result, so it cannot change the container),
resolves the bucket through the read-only `map` path, and reports absence. -/
theorem C8_get_miss_no_alloc (tid : Tag → TId) {s : MTM Tag Key TId T} {t : Tag}
    (k : Key t) (h : alGet (tid t) s.maps = none) :
    s.get tid k = some none := by
  simp [MTM.get, MTM.map, h]

/-- Witness for C8 on the empty container. -/
theorem C8_witness :
    alGet (id 0) (MTM.new : NMTM).maps = none ∧
    (MTM.new : NMTM).get id (t := 0) 5 = some none :=
  ⟨rfl, C8_get_miss_no_alloc id (t := 0) 5 rfl⟩

theorem persist_alSet {tid : Tag → TId} (hinj : Function.Injective tid)
    {m : List (TId × (Σ t' : Tag, List (Key t' × T)))}
    (htags : ∀ p ∈ m, tid p.2.1 = p.1) {i : TId} {ab : Σ t' : Tag, List (Key t' × T)}
    (hab : alGet i m = some ab) {t : Tag} (b' : List (Key t × T)) :
    ∃ b2, alGet i (alSet (tid t) ⟨t, b'⟩ m) = some ⟨ab.1, b2⟩ := by
  obtain ⟨ta, ba⟩ := ab
  by_cases hit : i = tid t
  · subst hit
    have hta : ta = t := hinj (htags _ (alGet_mem hab))
    subst hta
    exact ⟨b', alGet_alSet_self⟩
  · exact ⟨ba, by rw [alGet_alSet_ne hit, hab]⟩

/-- **C9.** Once a bucket has been created for a key type it persists for the
container's lifetime even if all its entries are removed: after any `insert`,
`remove` or `get_mut` call, every bucket previously held is still held, under
the same `TypeId` and with the same key-type tag (`get` takes `&self` and
cannot change the state). -/
theorem C9_buckets_persist {tid : Tag → TId} (hinj : Function.Injective tid)
    {s : MTM Tag Key TId T} (hwf : s.WF tid) {t : Tag} (k : Key t) (v : T)
    (i : TId) (ab : Σ t' : Tag, List (Key t' × T)) (hab : alGet i s.maps = some ab) :
    (∀ r s', s.insert tid k v = some (r, s') → ∃ b2, alGet i s'.maps = some ⟨ab.1, b2⟩) ∧
    (∀ r s', s.remove tid k = some (r, s') → ∃ b2, alGet i s'.maps = some ⟨ab.1, b2⟩) ∧
    (∀ r s', s.getMut tid k = some (r, s') → ∃ b2, alGet i s'.maps = some ⟨ab.1, b2⟩) := by
  obtain ⟨htags, -, -, -⟩ := hwf
  refine ⟨?_, ?_, ?_⟩
  · intro r s' h
    rcases insert_cases hinj htags k v
      with ⟨hget, heq⟩ | ⟨b, hget, hold, heq⟩ | ⟨b, w, hget, hold, heq⟩ <;>
    · have hs := h.symm.trans heq
      simp at hs
      obtain ⟨-, hs⟩ := hs
      subst hs
      exact persist_alSet hinj htags hab _
  · intro r s' h
    rcases remove_cases hinj htags k
      with ⟨hget, heq⟩ | ⟨b, hget, hold, heq⟩ | ⟨b, w, hget, hold, heq⟩
    · have hs := h.symm.trans heq
      simp at hs
      obtain ⟨-, hs⟩ := hs
      subst hs
      exact persist_alSet hinj htags hab _
    · have hs := h.symm.trans heq
      simp at hs
      obtain ⟨-, hs⟩ := hs
      subst hs
      exact ⟨ab.2, by rw [hab]⟩
    · have hs := h.symm.trans heq
      simp at hs
      obtain ⟨-, hs⟩ := hs
      subst hs
      exact persist_alSet hinj htags hab _
  · intro r s' h
    rcases getMut_cases hinj htags k with ⟨hget, heq⟩ | ⟨b, hget, heq⟩
    · have hs := h.symm.trans heq
      simp at hs
      obtain ⟨-, hs⟩ := hs
      subst hs
      exact persist_alSet hinj htags hab _
    · have hs := h.symm.trans heq
      simp at hs
      obtain ⟨-, hs⟩ := hs
      subst hs
      exact ⟨ab.2, by rw [hab]⟩

/-- Witness for C9: the bucket of key type `0` survives operations performed
with keys of key type `1`. -/
theorem C9_witness :
    Function.Injective (id : Nat → Nat) ∧ (⟨[(0, ⟨0, [(5, 7)]⟩)], 1⟩ : NMTM).WF id ∧
    alGet 0 (⟨[(0, ⟨0, [(5, 7)]⟩)], 1⟩ : NMTM).maps = some ⟨0, [(5, 7)]⟩ ∧
    ((∀ r s', (⟨[(0, ⟨0, [(5, 7)]⟩)], 1⟩ : NMTM).insert id (t := 1) 9 3 = some (r, s') →
        ∃ b2, alGet 0 s'.maps = some ⟨0, b2⟩) ∧
     (∀ r s', (⟨[(0, ⟨0, [(5, 7)]⟩)], 1⟩ : NMTM).remove id (t := 1) 9 = some (r, s') →
        ∃ b2, alGet 0 s'.maps = some ⟨0, b2⟩) ∧
     (∀ r s', (⟨[(0, ⟨0, [(5, 7)]⟩)], 1⟩ : NMTM).getMut id (t := 1) 9 = some (r, s') →
        ∃ b2, alGet 0 s'.maps = some ⟨0, b2⟩)) :=
  ⟨Function.injective_id, by refine ⟨?_, ?_, ?_, ?_⟩ <;> simp [sumSizes], rfl,
   C9_buckets_persist Function.injective_id
     (by refine ⟨?_, ?_, ?_, ?_⟩ <;> simp [sumSizes]) (t := 1) 9 3 0 ⟨0, [(5, 7)]⟩ rfl⟩

/-- **C6.** Entries stored under two distinct static key types are fully
independent, even when the key values coincide: an `insert`, `remove` or
`get_mut` performed with a key of type `t1` never changes what `get` observes
for any key of a different type `t2` (`get` itself takes `&self` and changes
nothing). -/
theorem C6_cross_type_independence {tid : Tag → TId} (hinj : Function.Injective tid)
    {s : MTM Tag Key TId T} (hwf : s.WF tid) {t1 t2 : Tag} (hne : t1 ≠ t2)
    (k1 : Key t1) (v : T) (k2 : Key t2) :
    (∀ r s', s.insert tid k1 v = some (r, s') → s'.get tid k2 = s.get tid k2) ∧
    (∀ r s', s.remove tid k1 = some (r, s') → s'.get tid k2 = s.get tid k2) ∧
    (∀ r s', s.getMut tid k1 = some (r, s') → s'.get tid k2 = s.get tid k2) := by
  obtain ⟨htags, -, -, -⟩ := hwf
  have hid : tid t2 ≠ tid t1 := fun hh => hne (hinj hh).symm
  refine ⟨?_, ?_, ?_⟩
  · intro r s' h
    rcases insert_cases hinj htags k1 v
      with ⟨hget, heq⟩ | ⟨b, hget, hold, heq⟩ | ⟨b, w, hget, hold, heq⟩ <;>
    · have hs := h.symm.trans heq
      simp at hs
      obtain ⟨-, hs⟩ := hs
      subst hs
      exact get_congr k2 (alGet_alSet_ne hid)
  · intro r s' h
    rcases remove_cases hinj htags k1
      with ⟨hget, heq⟩ | ⟨b, hget, hold, heq⟩ | ⟨b, w, hget, hold, heq⟩
    · have hs := h.symm.trans heq
      simp at hs
      obtain ⟨-, hs⟩ := hs
      subst hs
      exact get_congr k2 (alGet_alSet_ne hid)
    · have hs := h.symm.trans heq
      simp at hs
      obtain ⟨-, hs⟩ := hs
      subst hs
      rfl
    · have hs := h.symm.trans heq
      simp at hs
      obtain ⟨-, hs⟩ := hs
      subst hs
      exact get_congr k2 (alGet_alSet_ne hid)
  · intro r s' h
    rcases getMut_cases hinj htags k1 with ⟨hget, heq⟩ | ⟨b, hget, heq⟩
    · have hs := h.symm.trans heq
      simp at hs
      obtain ⟨-, hs⟩ := hs
      subst hs
      exact get_congr k2 (alGet_alSet_ne hid)
    · have hs := h.symm.trans heq
      simp at hs
      obtain ⟨-, hs⟩ := hs
      subst hs
      rfl

/-- Witness for C6 with key types `0` and `1` whose keys carry the same
numeric value. -/
theorem C6_witness :
    Function.Injective (id : Nat → Nat) ∧ (⟨[(0, ⟨0, [(5, 7)]⟩)], 1⟩ : NMTM).WF id ∧
    (0 : Nat) ≠ 1 ∧
    ((∀ r s', (⟨[(0, ⟨0, [(5, 7)]⟩)], 1⟩ : NMTM).insert id (t := 0) 5 9 = some (r, s') →
        s'.get id (t := 1) 5 = (⟨[(0, ⟨0, [(5, 7)]⟩)], 1⟩ : NMTM).get id (t := 1) 5) ∧
     (∀ r s', (⟨[(0, ⟨0, [(5, 7)]⟩)], 1⟩ : NMTM).remove id (t := 0) 5 = some (r, s') →
        s'.get id (t := 1) 5 = (⟨[(0, ⟨0, [(5, 7)]⟩)], 1⟩ : NMTM).get id (t := 1) 5) ∧
     (∀ r s', (⟨[(0, ⟨0, [(5, 7)]⟩)], 1⟩ : NMTM).getMut id (t := 0) 5 = some (r, s') →
        s'.get id (t := 1) 5 = (⟨[(0, ⟨0, [(5, 7)]⟩)], 1⟩ : NMTM).get id (t := 1) 5)) :=
  ⟨Function.injective_id, by refine ⟨?_, ?_, ?_, ?_⟩ <;> simp [sumSizes], by decide,
   C6_cross_type_independence Function.injective_id
     (by refine ⟨?_, ?_, ?_, ?_⟩ <;> simp [sumSizes]) (by decide) 5 9 5⟩

/-- **C10.** Under the precondition that distinct key types receive distinct
`TypeId`s (injectivity of `tid`), the `expect`-abort on a downcast failure is
unreachable: every operation returns a normal result on every well-formed
state.  And if a collision were observed, the downcast refuses (returns the
aborting `none`) instead of reinterpreting the stored bucket. -/
theorem C10_downcast_abort_unreachable {tid : Tag → TId} (hinj : Function.Injective tid)
    {s : MTM Tag Key TId T} (hwf : s.WF tid) {t : Tag} (k : Key t) (v : T) :
    ((s.insert tid k v).isSome ∧ (s.remove tid k).isSome ∧
      (s.get tid k).isSome ∧ (s.getMut tid k).isSome) ∧
    ∀ (t1 t2 : Tag) (b : List (Key t1 × T)), t1 ≠ t2 →
      downcast t2 (⟨t1, b⟩ : Σ t' : Tag, List (Key t' × T)) = none := by
  obtain ⟨htags, -, -, -⟩ := hwf
  constructor
  · refine ⟨?_, ?_, ?_, ?_⟩
    · rcases insert_cases hinj htags k v
        with ⟨-, heq⟩ | ⟨b, -, -, heq⟩ | ⟨b, w, -, -, heq⟩ <;> simp [heq]
    · rcases remove_cases hinj htags k
        with ⟨-, heq⟩ | ⟨b, -, -, heq⟩ | ⟨b, w, -, -, heq⟩ <;> simp [heq]
    · rcases get_cases hinj htags k with ⟨-, heq⟩ | ⟨b, -, heq⟩ <;> simp [heq]
    · rcases getMut_cases hinj htags k with ⟨-, heq⟩ | ⟨b, -, heq⟩ <;> simp [heq]
  · intro t1 t2 b hne
    exact downcast_ne hne

/-- Witness for C10 on a concrete well-formed state. -/
theorem C10_witness :
    Function.Injective (id : Nat → Nat) ∧ (⟨[(0, ⟨0, [(5, 7)]⟩)], 1⟩ : NMTM).WF id ∧
    ((((⟨[(0, ⟨0, [(5, 7)]⟩)], 1⟩ : NMTM).insert id (t := 0) 5 9).isSome ∧
      ((⟨[(0, ⟨0, [(5, 7)]⟩)], 1⟩ : NMTM).remove id (t := 0) 5).isSome ∧
      ((⟨[(0, ⟨0, [(5, 7)]⟩)], 1⟩ : NMTM).get id (t := 0) 5).isSome ∧
      ((⟨[(0, ⟨0, [(5, 7)]⟩)], 1⟩ : NMTM).getMut id (t := 0) 5).isSome) ∧
     ∀ (t1 t2 : Nat) (b : List (NKey t1 × Nat)), t1 ≠ t2 →
       downcast t2 (⟨t1, b⟩ : Σ t' : Nat, List (NKey t' × Nat)) = none) :=
  ⟨Function.injective_id, by refine ⟨?_, ?_, ?_, ?_⟩ <;> simp [sumSizes],
   C10_downcast_abort_unreachable Function.injective_id
     (by refine ⟨?_, ?_, ?_, ?_⟩ <;> simp [sumSizes]) (t := 0) 5 9⟩

/-- Counterexample to C4 as stated: on the empty container, `remove` with a
key of the bucket-less key type `0` *creates* a bucket for it — `remove` goes
through the write path `map_mut`, whose `or_insert_with` allocates — so the
set of buckets held is not unchanged by the call. -/
theorem C4_counterexample :
    (MTM.new : NMTM).remove id (t := 0) 0 = some (none, ⟨[(0, ⟨0, []⟩)], 0⟩) ∧
    (⟨[(0, ⟨0, []⟩)], 0⟩ : NMTM).maps.map Prod.fst ≠ (MTM.new : NMTM).maps.map Prod.fst := by
  constructor
  · rfl
  · simp [MTM.new]

/-- **C4 (amended).** `remove` resolves its bucket through the *write* path
`map_mut`: when a bucket for the key type already exists, the set of buckets
held (the list of `TypeId`s) is unchanged by the call; when none exists,
`remove` returns `None` with entries and `length` unchanged, but a fresh empty
bucket for the key type is created and registered. -/
theorem C4_remove_write_path {tid : Tag → TId} (hinj : Function.Injective tid)
    {s : MTM Tag Key TId T} (hwf : s.WF tid) {t : Tag} (k : Key t) :
    (∀ ab, alGet (tid t) s.maps = some ab →
      ∃ r s', s.remove tid k = some (r, s') ∧
        s'.maps.map Prod.fst = s.maps.map Prod.fst) ∧
    (alGet (tid t) s.maps = none →
      s.remove tid k = some (none, ⟨alSet (tid t) ⟨t, []⟩ s.maps, s.length⟩) ∧
      (alSet (tid t) ⟨t, []⟩ s.maps).map Prod.fst = s.maps.map Prod.fst ++ [tid t]) := by
  obtain ⟨htags, -, -, -⟩ := hwf
  constructor
  · intro ab hab
    rcases remove_cases hinj htags k
      with ⟨hget, heq⟩ | ⟨b, hget, hold, heq⟩ | ⟨b, w, hget, hold, heq⟩
    · rw [hab] at hget
      simp at hget
    · exact ⟨_, _, heq, rfl⟩
    · exact ⟨_, _, heq, keys_alSet_some hget⟩
  · intro hget
    rcases remove_cases hinj htags k
      with ⟨hget2, heq⟩ | ⟨b, hget2, hold, heq⟩ | ⟨b, w, hget2, hold, heq⟩
    · exact ⟨heq, keys_alSet_none hget⟩
    · rw [hget] at hget2
      simp at hget2
    · rw [hget] at hget2
      simp at hget2

/-- Witness for the amended C4 on the empty container. -/
theorem C4_witness :
    Function.Injective (id : Nat → Nat) ∧ (MTM.new : NMTM).WF id ∧
    ((∀ ab, alGet (id 0) (MTM.new : NMTM).maps = some ab →
      ∃ r s', (MTM.new : NMTM).remove id (t := 0) 0 = some (r, s') ∧
        s'.maps.map Prod.fst = (MTM.new : NMTM).maps.map Prod.fst) ∧
    (alGet (id 0) (MTM.new : NMTM).maps = none →
      (MTM.new : NMTM).remove id (t := 0) 0 =
        some (none, ⟨alSet (id 0) ⟨0, []⟩ (MTM.new : NMTM).maps, (MTM.new : NMTM).length⟩) ∧
      (alSet (id 0) ⟨0, []⟩ (MTM.new : NMTM).maps).map Prod.fst =
        (MTM.new : NMTM).maps.map Prod.fst ++ [id 0])) :=
  ⟨Function.injective_id, wf_new id,
   C4_remove_write_path Function.injective_id (wf_new id) (t := 0) 0⟩

/-- Counterexample to C5 as stated: `get_mut` with a key of a bucket-less key
type misses (returns `None`) yet does *not* leave the container unchanged — it
allocates an empty bucket through `map_mut`'s `or_insert_with`. -/
theorem C5_counterexample :
    (MTM.new : NMTM).getMut id (t := 0) 0 = some (none, ⟨[(0, ⟨0, []⟩)], 0⟩) ∧
    (⟨[(0, ⟨0, []⟩)], 0⟩ : NMTM) ≠ (MTM.new : NMTM) := by
  constructor
  · rfl
  · simp [MTM.new]

theorem get_after_empty_bucket {tid : Tag → TId} (hinj : Function.Injective tid)
    {s : MTM Tag Key TId T} {t : Tag}
    (hget : alGet (tid t) s.maps = none) {n : Nat} :
    ∀ (t2 : Tag) (k2 : Key t2),
      (⟨alSet (tid t) ⟨t, []⟩ s.maps, n⟩ : MTM Tag Key TId T).get tid k2 = s.get tid k2 := by
  intro t2 k2
  by_cases ht2 : t2 = t
  · subst ht2
    rw [get_of_maps_alSet (b := []) k2]
    simp [MTM.get, MTM.map, hget]
  · have hid : tid t2 ≠ tid t := fun hh => ht2 (hinj hh)
    exact get_congr k2 (alGet_alSet_ne hid)

/-- **C5 (amended).** Every "not found" outcome is an explicit `None`, never a
fault: on well-formed states all four operations return normally.  `get` takes
`&self` and is side-effect-free.  On a miss, `remove` and `get_mut` return
`None` and leave `len()` and every observable entry (what `get` returns, for
every key of every key type) unchanged; the only state change either may make
is registering a fresh empty bucket for the key type when none existed. -/
theorem C5_miss_spec {tid : Tag → TId} (hinj : Function.Injective tid)
    {s : MTM Tag Key TId T} (hwf : s.WF tid) {t : Tag} (k : Key t) (v : T) :
    ((s.insert tid k v).isSome ∧ (s.remove tid k).isSome ∧
      (s.get tid k).isSome ∧ (s.getMut tid k).isSome) ∧
    (s.get tid k = some none →
      ∃ s', s.remove tid k = some (none, s') ∧ s'.len = s.len ∧
        (∀ (t2 : Tag) (k2 : Key t2), s'.get tid k2 = s.get tid k2) ∧
        (s'.maps.map Prod.fst = s.maps.map Prod.fst ∨
          s'.maps.map Prod.fst = s.maps.map Prod.fst ++ [tid t])) ∧
    (s.get tid k = some none →
      ∃ s', s.getMut tid k = some (none, s') ∧ s'.len = s.len ∧
        (∀ (t2 : Tag) (k2 : Key t2), s'.get tid k2 = s.get tid k2) ∧
        (s'.maps.map Prod.fst = s.maps.map Prod.fst ∨
          s'.maps.map Prod.fst = s.maps.map Prod.fst ++ [tid t])) := by
  obtain ⟨htags, -, -, -⟩ := hwf
  refine ⟨⟨?_, ?_, ?_, ?_⟩, ?_, ?_⟩
  · rcases insert_cases hinj htags k v
      with ⟨-, heq⟩ | ⟨b, -, -, heq⟩ | ⟨b, w, -, -, heq⟩ <;> simp [heq]
  · rcases remove_cases hinj htags k
      with ⟨-, heq⟩ | ⟨b, -, -, heq⟩ | ⟨b, w, -, -, heq⟩ <;> simp [heq]
  · rcases get_cases hinj htags k with ⟨-, heq⟩ | ⟨b, -, heq⟩ <;> simp [heq]
  · rcases getMut_cases hinj htags k with ⟨-, heq⟩ | ⟨b, -, heq⟩ <;> simp [heq]
  · intro hmiss
    rcases remove_cases hinj htags k
      with ⟨hget, heq⟩ | ⟨b, hget, hold, heq⟩ | ⟨b, w, hget, hold, heq⟩
    · exact ⟨_, heq, rfl, get_after_empty_bucket hinj hget, Or.inr (keys_alSet_none hget)⟩
    · exact ⟨_, heq, rfl, fun t2 k2 => rfl, Or.inl rfl⟩
    · have hg : s.get tid k = some (some w) := by
        simp [MTM.get, MTM.map, hget, hold]
      rw [hg] at hmiss
      simp at hmiss
  · intro hmiss
    rcases getMut_cases hinj htags k with ⟨hget, heq⟩ | ⟨b, hget, heq⟩
    · exact ⟨_, heq, rfl, get_after_empty_bucket hinj hget, Or.inr (keys_alSet_none hget)⟩
    · have hg : s.get tid k = some (alGet k b) := by
        simp [MTM.get, MTM.map, hget]
      rw [hg] at hmiss
      simp at hmiss
      rw [hmiss] at heq
      exact ⟨_, heq, rfl, fun t2 k2 => rfl, Or.inl rfl⟩

/-- Witness for the amended C5 on the empty container, with key `5` of key
type `0` absent. -/
theorem C5_witness :
    Function.Injective (id : Nat → Nat) ∧ (MTM.new : NMTM).WF id ∧
    ((((MTM.new : NMTM).insert id (t := 0) 5 7).isSome ∧
      ((MTM.new : NMTM).remove id (t := 0) 5).isSome ∧
      ((MTM.new : NMTM).get id (t := 0) 5).isSome ∧
      ((MTM.new : NMTM).getMut id (t := 0) 5).isSome) ∧
    ((MTM.new : NMTM).get id (t := 0) 5 = some none →
      ∃ s', (MTM.new : NMTM).remove id (t := 0) 5 = some (none, s') ∧
        s'.len = (MTM.new : NMTM).len ∧
        (∀ (t2 : Nat) (k2 : NKey t2), s'.get id k2 = (MTM.new : NMTM).get id k2) ∧
        (s'.maps.map Prod.fst = (MTM.new : NMTM).maps.map Prod.fst ∨
          s'.maps.map Prod.fst = (MTM.new : NMTM).maps.map Prod.fst ++ [id 0])) ∧
    ((MTM.new : NMTM).get id (t := 0) 5 = some none →
      ∃ s', (MTM.new : NMTM).getMut id (t := 0) 5 = some (none, s') ∧
        s'.len = (MTM.new : NMTM).len ∧
        (∀ (t2 : Nat) (k2 : NKey t2), s'.get id k2 = (MTM.new : NMTM).get id k2) ∧
        (s'.maps.map Prod.fst = (MTM.new : NMTM).maps.map Prod.fst ∨
          s'.maps.map Prod.fst = (MTM.new : NMTM).maps.map Prod.fst ++ [id 0]))) :=
  ⟨Function.injective_id, wf_new id,
   C5_miss_spec Function.injective_id (wf_new id) (t := 0) 5 7⟩

end Claims
